import Mathlib

/-!
Shallow embedding of `src/scriptit/shape.py` (terminal shape utilities:
progress bars, word wrapping, ascii tables).

Strings are modelled as `List Char`.  The repository's `color.decolorize`
helper (the "visible length" collaborator) is not part of `src/`; following
the spec it is the identity on strings without formatting sequences, so
`_printed_len` is modelled as `List.length`.

Python `float` values (`complete_pct`, the proportional width shares) are
modelled as `ℚ`; Python's `int(...)` truncation toward zero is `pyInt`.
A Python function that can raise (assertion failures, `max()` of an empty
sequence, division by zero, index errors) is modelled as returning
`Option`; a diverging loop is modelled with explicit fuel, with `none`
for fuel exhaustion.
-/

/-- Python `int(q)` for a float/rational `q`: truncation toward zero. -/
def pyInt (q : ℚ) : ℤ := q.num.tdiv q.den

/-- Python `line.split(" ")`: split on every single occurrence of a space;
`splitOnSpace [] = [[]]` just as `"".split(" ") == [""]`. -/
def splitOnSpace : List Char → List (List Char)
  | [] => [[]]
  | c :: cs =>
    if c = ' ' then [] :: splitOnSpace cs
    else
      match splitOnSpace cs with
      | [] => [[c]]
      | t :: ts => (c :: t) :: ts

/-- Termination measure for the token-packing loop: total number of
characters remaining plus one per remaining token. -/
def tokensMeasure (ws : List (List Char)) : ℕ :=
  (ws.map (fun w => w.length + 1)).sum

/-- The inner `while len(words)` loop of `_word_wrap_to_len`
(src/scriptit/shape.py lines 186-198): starting from the current
`subline`, greedily pack whole tokens (each with a trailing space), force
hyphen-splitting a token that alone exceeds `max_len`, and stop (`break`)
when nothing further fits.  Returns the final subline and the remaining
words. -/
def packLine (maxLen : ℤ) : List Char → List (List Char) → List Char × List (List Char)
  | subline, [] => (subline, [])
  | subline, w :: ws =>
    if h1 : (subline.length : ℤ) + w.length ≤ maxLen then
      packLine maxLen (subline ++ w ++ [' ']) ws
    else if h2 : (w.length : ℤ) > maxLen then
      if h3 : maxLen - subline.length - 1 ≤ 0 then (subline, w :: ws)
      else
        packLine maxLen (subline ++ w.take (maxLen - subline.length - 1).toNat ++ ['-', ' '])
          (w.drop (maxLen - subline.length - 1).toNat :: ws)
    else (subline, w :: ws)
termination_by s ws => tokensMeasure ws
decreasing_by
  · simp [tokensMeasure]
  · simp only [tokensMeasure, List.map_cons, List.sum_cons, List.length_drop]
    have hcut : (0:ℤ) < maxLen - subline.length - 1 := by omega
    have hw : (maxLen:ℤ) < w.length := by exact_mod_cast h2
    have h4 : 1 ≤ (maxLen - (subline.length:ℤ) - 1).toNat := by omega
    have h5 : (maxLen - (subline.length:ℤ) - 1).toNat < w.length := by omega
    omega

/-- The outer `while len(words)` loop of `_word_wrap_to_len`
(src/scriptit/shape.py lines 184-201), with explicit fuel: each round packs
one subline from the remaining words, strips the trailing character
(`subline[:-1]`), records it, and updates the running maximum length. -/
def wrapLoop (maxLen : ℤ) : ℕ → List (List Char) → List (List Char) → ℕ →
    Option (List (List Char) × ℕ)
  | 0, _, _, _ => none
  | _ + 1, [], sublines, longest => some (sublines, longest)
  | fuel + 1, w :: ws, sublines, longest =>
    let r := packLine maxLen [] (w :: ws)
    let s := r.1.dropLast
    wrapLoop maxLen fuel r.2 (sublines ++ [s]) (max longest s.length)

/-- `_word_wrap_to_len(line, max_len)` (src/scriptit/shape.py lines
166-202).  If the line already fits it is returned unchanged; otherwise the
greedy packing loop runs.  The fuel `tokensMeasure words + 1` is an upper
bound on the number of rounds whenever the Python loop terminates, so
`none` corresponds exactly to the Python loop running forever. -/
def word_wrap_to_len (line : List Char) (maxLen : ℤ) :
    Option (List (List Char) × ℕ) :=
  if (line.length : ℤ) ≤ maxLen then some ([line], line.length)
  else
    let words := splitOnSpace line
    wrapLoop maxLen (tokensMeasure words + 1) words [] 0

/-- Python `s * n` for a string `s` and integer `n` (empty for `n ≤ 0`). -/
def pyRepeat (s : List Char) (n : ℤ) : List Char :=
  (List.replicate n.toNat s).flatten

/-- Python `enumerate`, starting at index `n`. -/
def pyEnum (n : ℕ) : List α → List (ℕ × α)
  | [] => []
  | x :: xs => (n, x) :: pyEnum (n + 1) xs

/-- Python `sorted(l, key=lambda x: x[0])` on a list of `(width, index)`
pairs: the unique stable ascending reordering by first component, here
realised by insertion sort. -/
def sortByFst (l : List (ℤ × ℕ)) : List (ℤ × ℕ) :=
  List.insertionSort (fun a b => a.1 ≤ b.1) l

/-- `_make_hline(table_width, char, edge)` (src/scriptit/shape.py lines
205-206), without the trailing newline. -/
def make_hline (table_width : ℤ) (char edge : Char) : List Char :=
  edge :: List.replicate (table_width - 2).toNat char ++ [edge]

/-- `max_width` resolution of `table` (line 94-95). -/
def tableMaxWidth (term : ℤ) (max_width? : Option ℤ) : ℤ :=
  max_width?.getD term

/-- `min_width` resolution of `table` (lines 96-97). -/
def tableMinWidth (nCols : ℕ) (width? min_width? : Option ℤ) : ℤ :=
  min_width?.getD (match width? with
    | none => 2 * (nCols : ℤ) + 1
    | some w => w)

/-- The per-column natural widths (lines 101-104): the longest cell length,
capped at `max_width - 3 - 2*(n_columns-1)`. -/
def natWidths (max_width : ℤ) (columns : List (List (List Char))) : List ℤ :=
  let max_col_width := max_width - 3 - 2 * ((columns.length : ℤ) - 1)
  columns.map (fun col =>
    min (((col.map List.length).foldr max 0 : ℕ) : ℤ) max_col_width)

/-- `total_width` (line 106). -/
def totalWidth (ws : List ℤ) : ℤ := (ws.map (· + 3)).sum + 1

/-- `table_width` (line 107): `max(min(total_width, max_width), min_width)`. -/
def tableWidth (term : ℤ) (columns : List (List (List Char)))
    (width? max_width? min_width? : Option ℤ) : ℤ :=
  let max_width := tableMaxWidth term max_width?
  max (min (totalWidth (natWidths max_width columns)) max_width)
    (tableMinWidth columns.length width? min_width?)

/-- The proportional distribution (lines 110-112): each column gets
`int(share * usable) + 3`, and the last column is overwritten to absorb the
rounding remainder. -/
def colWidthsInit (usable total : ℤ) (ws : List ℤ) : List ℤ :=
  let cw0 := ws.map (fun (w : ℤ) => pyInt ((w : ℚ) / (total : ℚ) * (usable : ℚ)) + 3)
  cw0.take (cw0.length - 1) ++ [usable - (cw0.take (cw0.length - 1)).sum]

/-- The collapsed columns (line 114): width minus 2 below 2. -/
def collapsedOf (cw : List ℤ) : List (ℕ × ℤ) :=
  (pyEnum 0 cw).filter (fun p => p.2 - 2 < 2)

/-- The donor pool (lines 115-118): the non-collapsed `(width, index)`
pairs, sorted ascending by width. -/
def extraOf (cw : List ℤ) : List (ℤ × ℕ) :=
  sortByFst (((pyEnum 0 cw).filter (fun p => ¬ p ∈ collapsedOf cw)).map
    (fun p => (p.2, p.1)))

/-- The collapse/redistribute loop (lines 119-124).  For each collapsed
`(i, w)`: assert a donor exists with `extra[0][0] - w > 2` (else `none`),
set the donor slot to `extra[0][0] - (2 - w)` and slot `i` to
`w + (2 - w)`, then re-sort the (unchanged) donor pool. -/
def collapseLoop : List (ℕ × ℤ) → List ℤ → List (ℤ × ℕ) → Option (List ℤ)
  | [], cw, _ => some cw
  | (i, w) :: rest, cw, extra =>
    match extra with
    | [] => none
    | (ew, ei) :: _ =>
      if ew - w > 2 then
        collapseLoop rest ((cw.set ei (ew - (2 - w))).set i (w + (2 - w)))
          (sortByFst extra)
      else none

/-- The proportional widths (lines 110-112) of a `table` call, before the
collapse pass. -/
def colWidthsPre (term : ℤ) (columns : List (List (List Char)))
    (width? max_width? min_width? : Option ℤ) : List ℤ :=
  colWidthsInit (tableWidth term columns width? max_width? min_width? - 1)
    (totalWidth (natWidths (tableMaxWidth term max_width?) columns))
    (natWidths (tableMaxWidth term max_width?) columns)

/-- The final per-column widths of a `table` call: guards for the Python
errors raised before the collapse pass (`max()` of an empty cell list,
`col_widths[-1]` of an empty column list, float division by a zero
`total_width`), then the proportional distribution and the collapse loop. -/
def tableColWidths (term : ℤ) (columns : List (List (List Char)))
    (width? max_width? min_width? : Option ℤ) : Option (List ℤ) :=
  if columns = [] ∨ columns.any (· = []) then none
  else if totalWidth (natWidths (tableMaxWidth term max_width?) columns) = 0 then none
  else
    collapseLoop (collapsedOf (colWidthsPre term columns width? max_width? min_width?))
      (colWidthsPre term columns width? max_width? min_width?)
      (extraOf (colWidthsPre term columns width? max_width? min_width?))

/-- The per-column wrapping loop body (lines 129-132): for each entry,
assert `col_widths[i] - 2 > 1` and word-wrap the entry to the content
width. -/
def wrapColumn (w : ℤ) : List (List Char) → Option (List (List (List Char)))
  | [] => some []
  | e :: es =>
    if w - 2 > 1 then
      match word_wrap_to_len e (w - 2), wrapColumn w es with
      | some (sl, _), some rest => some (sl :: rest)
      | _, _ => none
    else none

/-- The wrapping pass over all columns (lines 126-132), pairing each column
with its allocated width. -/
def wrapColumns : List ℤ → List (List (List Char)) → Option (List (List (List (List Char))))
  | _, [] => some []
  | [], _ :: _ => none
  | w :: ws, col :: cols =>
    match wrapColumn w col, wrapColumns ws cols with
    | some g, some gs => some (g :: gs)
    | _, _ => none

/-- `n_rows` (line 135): the length of the longest column. -/
def nRows (columns : List (List (List Char))) : ℕ :=
  (columns.map List.length).foldr max 0

/-- The per-row cell groups (line 137): `col[r] if r < len(col) else [""]`. -/
def rowVals (wrapped : List (List (List (List Char)))) (r : ℕ) :
    List (List (List Char)) :=
  wrapped.map (fun col => col.getD r [[]])

/-- One physical output line of a row (lines 140-146): per column
`"| " + val + padding`, then a closing `"|"`. -/
def renderRowLine (cw : List ℤ) (vals : List (List Char)) : List Char :=
  (cw.zip vals).flatMap
    (fun p => '|' :: ' ' :: p.2 ++ List.replicate (p.1 - p.2.length - 2).toNat ' ')
    ++ ['|']

/-- The physical lines of one table row (lines 138-147): one line per
subline index up to the tallest cell of the row, missing sublines rendered
as the empty string. -/
def rowLines (cw : List ℤ) (entries : List (List (List Char))) : List (List Char) :=
  let most := (entries.map List.length).foldr max 0
  (List.range most).map (fun i => renderRowLine cw (entries.map (fun e => e.getD i [])))

/-- The divider emitted after row `r` (lines 148-157):
`if r == 0 / elif r < n_rows - 1 / else`. -/
def rowDivider (r n_rows : ℕ) (tw : ℤ) (row_dividers header : Bool) :
    List (List Char) :=
  if r = 0 then
    if header then [make_hline tw '=' '|']
    else if row_dividers then [make_hline tw '-' '|']
    else []
  else if r < n_rows - 1 then
    if row_dividers then [make_hline tw '-' '|']
    else []
  else [make_hline tw '-' '+']

/-- `table(columns, width, max_width, min_width, row_dividers, header)`
(src/scriptit/shape.py lines 71-159), as the list of physical output lines
(the Python function returns their concatenation, each followed by a
newline).  `none` models any raised error along the way. -/
def table (term : ℤ) (columns : List (List (List Char)))
    (width? max_width? min_width? : Option ℤ) (row_dividers header : Bool) :
    Option (List (List Char)) :=
  match tableColWidths term columns width? max_width? min_width? with
  | none => none
  | some cw =>
    match wrapColumns cw columns with
    | none => none
    | some wrapped =>
      let tw := tableWidth term columns width? max_width? min_width?
      let n_rows := nRows columns
      some (make_hline tw '-' '+' ::
        (List.range n_rows).flatMap
          (fun r => rowLines cw (rowVals wrapped r) ++
            rowDivider r n_rows tw row_dividers header))

/-- `progress_bar(complete_pct, width, done_char, undone_char, head_char)`
(src/scriptit/shape.py lines 9-36).  The three `assert len(c) == 1` checks
are modelled as `none`; `width=None` falls back to the terminal width
`term`. -/
def progress_bar (term : ℤ) (complete_pct : ℚ) (width? : Option ℤ)
    (done_char undone_char head_char : List Char) : Option (List Char) :=
  if done_char.length = 1 ∧ undone_char.length = 1 ∧ head_char.length = 1 then
    let width := width?.getD term
    let n_done := pyInt ((width - 3 : ℚ) * complete_pct)
    let n_undone := width - 3 - n_done
    some ('[' :: pyRepeat done_char n_done ++ head_char ++
      pyRepeat undone_char n_undone ++ [']'])
  else none

/-- Maximum of a list of naturals (`0` for the empty list). -/
def listMax (l : List ℕ) : ℕ := l.foldr max 0

/-- Rejoin a list of lines with single spaces. -/
def joinSpaces : List (List Char) → List Char
  | [] => []
  | [t] => t
  | t :: ts => t ++ ' ' :: joinSpaces ts

/-- Concatenate tokens, each with one trailing space: the shape of the
subline accumulator while `packLine` consumes whole tokens. -/
def joinSp (ts : List (List Char)) : List Char :=
  ts.flatMap (fun t => t ++ [' '])

/-! ### Lemmas about the token-packing loop `packLine` -/

theorem packLine_nil (maxLen : ℤ) (sub : List Char) :
    packLine maxLen sub [] = (sub, []) := by
  simp [packLine]

/-- A nonempty subline stays nonempty through packing. -/
theorem packLine_fst_ne_nil (maxLen : ℤ) :
    ∀ (sub : List Char) (words : List (List Char)), sub ≠ [] →
    (packLine maxLen sub words).1 ≠ [] := by
  intro sub words
  induction sub, words using packLine.induct maxLen with
  | case1 s => intro h; simpa [packLine] using h
  | case2 s w ws h1 ih =>
    intro _
    rw [packLine, dif_pos h1]
    exact ih (by simp)
  | case3 s w ws h1 h2 h3 =>
    intro h
    rw [packLine, dif_neg h1, dif_pos h2, dif_pos h3]
    exact h
  | case4 s w ws h1 h2 h3 ih =>
    intro _
    rw [packLine, dif_neg h1, dif_pos h2, dif_neg h3]
    exact ih (by simp)
  | case5 s w ws h1 h2 =>
    intro h
    rw [packLine, dif_neg h1, dif_neg h2]
    exact h

/-- If packing from an empty subline produced an empty subline, the very
first step must have been a `break`, so the words are untouched. -/
theorem packLine_empty_stuck (maxLen : ℤ) (words : List (List Char))
    (h : (packLine maxLen [] words).1 = []) :
    (packLine maxLen [] words).2 = words := by
  cases words with
  | nil => simp [packLine]
  | cons w ws =>
    by_cases h1 : ((([] : List Char).length : ℤ) + w.length ≤ maxLen)
    · exfalso
      rw [packLine, dif_pos h1] at h
      exact packLine_fst_ne_nil maxLen _ _ (by simp) h
    · by_cases h2 : ((w.length : ℤ) > maxLen)
      · by_cases h3 : (maxLen - (([] : List Char).length : ℤ) - 1 ≤ 0)
        · rw [packLine, dif_neg h1, dif_pos h2, dif_pos h3]
        · exfalso
          rw [packLine, dif_neg h1, dif_pos h2, dif_neg h3] at h
          exact packLine_fst_ne_nil maxLen _ _ (by simp) h
      · rw [packLine, dif_neg h1, dif_neg h2]

/-- The subline length bound: packing never grows a subline beyond
`maxLen + 1` characters (the trailing space included). -/
theorem packLine_length (maxLen : ℤ) :
    ∀ (sub : List Char) (words : List (List Char)),
    (sub = [] ∨ (sub.length : ℤ) ≤ maxLen + 1) →
    ((packLine maxLen sub words).1 = [] ∨
      (((packLine maxLen sub words).1.length : ℤ) ≤ maxLen + 1)) := by
  intro sub words
  induction sub, words using packLine.induct maxLen with
  | case1 s => intro h; simpa [packLine] using h
  | case2 s w ws h1 ih =>
    intro _
    rw [packLine, dif_pos h1]
    refine ih (Or.inr ?_)
    have : (s.length : ℤ) + w.length ≤ maxLen := h1
    simp only [List.length_append, List.length_cons, List.length_nil]
    push_cast
    omega
  | case3 s w ws h1 h2 h3 =>
    intro h
    rw [packLine, dif_neg h1, dif_pos h2, dif_pos h3]
    exact h
  | case4 s w ws h1 h2 h3 ih =>
    intro _
    rw [packLine, dif_neg h1, dif_pos h2, dif_neg h3]
    refine ih (Or.inr ?_)
    have hw : (maxLen : ℤ) < w.length := h2
    have hcut : (0 : ℤ) < maxLen - s.length - 1 := by omega
    have htake : (w.take (maxLen - (s.length : ℤ) - 1).toNat).length
        = (maxLen - (s.length : ℤ) - 1).toNat := by
      rw [List.length_take]
      omega
    simp only [List.length_append, htake, List.length_cons, List.length_nil]
    push_cast
    omega
  | case5 s w ws h1 h2 =>
    intro h
    rw [packLine, dif_neg h1, dif_neg h2]
    exact h

/-- Packing never increases the remaining-words measure. -/
theorem packLine_measure_le (maxLen : ℤ) :
    ∀ (sub : List Char) (words : List (List Char)),
    tokensMeasure (packLine maxLen sub words).2 ≤ tokensMeasure words := by
  intro sub words
  induction sub, words using packLine.induct maxLen with
  | case1 s => simp [packLine, tokensMeasure]
  | case2 s w ws h1 ih =>
    rw [packLine, dif_pos h1]
    refine le_trans ih ?_
    simp [tokensMeasure]
  | case3 s w ws h1 h2 h3 =>
    rw [packLine, dif_neg h1, dif_pos h2, dif_pos h3]
  | case4 s w ws h1 h2 h3 ih =>
    rw [packLine, dif_neg h1, dif_pos h2, dif_neg h3]
    refine le_trans ih ?_
    simp only [tokensMeasure, List.map_cons, List.sum_cons, List.length_drop]
    omega
  | case5 s w ws h1 h2 =>
    rw [packLine, dif_neg h1, dif_neg h2]

/-- With a content width of at least 2, packing a nonempty word list from
an empty subline makes strict progress. -/
theorem packLine_measure_lt (maxLen : ℤ) (hml : 2 ≤ maxLen)
    (w : List Char) (ws : List (List Char)) :
    tokensMeasure (packLine maxLen [] (w :: ws)).2 < tokensMeasure (w :: ws) := by
  by_cases h1 : ((([] : List Char).length : ℤ) + w.length ≤ maxLen)
  · rw [packLine, dif_pos h1]
    refine lt_of_le_of_lt (packLine_measure_le maxLen _ _) ?_
    simp [tokensMeasure]
  · have h2 : ((w.length : ℤ) > maxLen) := by
      simp only [List.length_nil, Nat.cast_zero, zero_add] at h1
      omega
    have h3 : ¬(maxLen - (([] : List Char).length : ℤ) - 1 ≤ 0) := by
      simp only [List.length_nil, Nat.cast_zero]
      omega
    rw [packLine, dif_neg h1, dif_pos h2, dif_neg h3]
    refine lt_of_le_of_lt (packLine_measure_le maxLen _ _) ?_
    simp only [tokensMeasure, List.map_cons, List.sum_cons, List.length_drop]
    have hw : (maxLen : ℤ) < w.length := h2
    simp only [List.length_nil, Nat.cast_zero]
    omega

/-- When the content width is at most 1, a token that is strictly longer
than the width is never consumed nor split by packing. -/
theorem packLine_keeps_long_token (maxLen : ℤ) (hml : maxLen ≤ 1)
    (t : List Char) (ht : maxLen < (t.length : ℤ)) :
    ∀ (sub : List Char) (words : List (List Char)), t ∈ words →
    t ∈ (packLine maxLen sub words).2 := by
  intro sub words
  induction sub, words using packLine.induct maxLen with
  | case1 s => intro h; exact absurd h (List.not_mem_nil t)
  | case2 s w ws h1 ih =>
    intro hmem
    rw [packLine, dif_pos h1]
    rcases List.mem_cons.mp hmem with rfl | hmem'
    · exfalso
      have : (s.length : ℤ) + t.length ≤ maxLen := h1
      omega
    · exact ih hmem'
  | case3 s w ws h1 h2 h3 =>
    intro hmem
    rw [packLine, dif_neg h1, dif_pos h2, dif_pos h3]
    exact hmem
  | case4 s w ws h1 h2 h3 ih =>
    exfalso
    have : (0 : ℤ) < maxLen - s.length - 1 := by omega
    omega
  | case5 s w ws h1 h2 =>
    intro hmem
    rw [packLine, dif_neg h1, dif_neg h2]
    exact hmem

/-- If every remaining token fits on a line by itself, packing consumes a
(nonempty, when possible) prefix of the tokens whole, leaving the rest. -/
theorem packLine_all_fit (maxLen : ℤ) :
    ∀ (sub : List Char) (words : List (List Char)),
    (∀ w ∈ words, (w.length : ℤ) ≤ maxLen) →
    ∃ T rest, words = T ++ rest ∧
      packLine maxLen sub words = (sub ++ joinSp T, rest) ∧
      (sub = [] → words ≠ [] → T ≠ []) := by
  intro sub words
  induction sub, words using packLine.induct maxLen with
  | case1 s =>
    intro _
    exact ⟨[], [], by simp, by simp [packLine, joinSp], by simp⟩
  | case2 s w ws h1 ih =>
    intro hfit
    obtain ⟨T, rest, heq, hpack, -⟩ := ih (fun x hx => hfit x (List.mem_cons_of_mem w hx))
    refine ⟨w :: T, rest, by simp [heq], ?_, fun _ _ => by simp⟩
    rw [packLine, dif_pos h1, hpack]
    simp [joinSp]
  | case3 s w ws h1 h2 h3 =>
    intro hfit
    exact absurd (hfit w (List.mem_cons_self w ws)) (by exact_mod_cast not_le.mpr h2)
  | case4 s w ws h1 h2 h3 ih =>
    intro hfit
    exact absurd (hfit w (List.mem_cons_self w ws)) (by exact_mod_cast not_le.mpr h2)
  | case5 s w ws h1 h2 =>
    intro hfit
    refine ⟨[], w :: ws, by simp, ?_, ?_⟩
    · rw [packLine, dif_neg h1, dif_neg h2]
      simp [joinSp]
    · intro hs _
      exfalso
      apply h1
      subst hs
      simpa using hfit w (List.mem_cons_self w ws)

/-! ### Lemmas about the outer wrapping loop `wrapLoop` -/

theorem tokensMeasure_append (a b : List (List Char)) :
    tokensMeasure (a ++ b) = tokensMeasure a + tokensMeasure b := by
  simp [tokensMeasure]

/-- With content width at least 2, fuel `tokensMeasure words + 1` always
suffices: the loop terminates. -/
theorem wrapLoop_isSome (maxLen : ℤ) (hml : 2 ≤ maxLen) :
    ∀ (fuel : ℕ) (words acc : List (List Char)) (lg : ℕ),
    tokensMeasure words < fuel → (wrapLoop maxLen fuel words acc lg).isSome := by
  intro fuel
  induction fuel with
  | zero => intro words acc lg h; omega
  | succ n ih =>
    intro words acc lg h
    cases words with
    | nil => simp [wrapLoop]
    | cons w ws =>
      rw [wrapLoop]
      refine ih _ _ _ (lt_of_lt_of_le (packLine_measure_lt maxLen hml w ws) ?_)
      omega

/-- If the first packing round makes no progress, the loop never
terminates: every fuel value is exhausted. -/
theorem wrapLoop_stuck (maxLen : ℤ) (words : List (List Char))
    (hne : words ≠ []) (hstuck : packLine maxLen [] words = ([], words)) :
    ∀ (fuel : ℕ) (acc : List (List Char)) (lg : ℕ),
    wrapLoop maxLen fuel words acc lg = none := by
  intro fuel
  induction fuel with
  | zero => intro acc lg; rfl
  | succ n ih =>
    intro acc lg
    cases words with
    | nil => exact absurd rfl hne
    | cons w ws =>
      rw [wrapLoop]
      simp only [hstuck]
      exact ih _ _

/-- With content width at most 1, any remaining token longer than the
width makes the loop run forever. -/
theorem wrapLoop_diverges (maxLen : ℤ) (hml : maxLen ≤ 1) :
    ∀ (fuel : ℕ) (words acc : List (List Char)) (lg : ℕ),
    (∃ t ∈ words, maxLen < (t.length : ℤ)) →
    wrapLoop maxLen fuel words acc lg = none := by
  intro fuel
  induction fuel with
  | zero => intro words acc lg _; rfl
  | succ n ih =>
    intro words acc lg hex
    obtain ⟨t, ht, hlen⟩ := hex
    cases words with
    | nil => exact absurd ht (List.not_mem_nil t)
    | cons w ws =>
      rw [wrapLoop]
      exact ih _ _ _ ⟨t, packLine_keeps_long_token maxLen hml t hlen [] _ ht, hlen⟩

theorem listMax_append_singleton (l : List ℕ) (x : ℕ) :
    listMax (l ++ [x]) = max (listMax l) x := by
  induction l with
  | nil => simp [listMax]
  | cons a l ih => simp only [List.cons_append, listMax, List.foldr_cons] at *; omega

/-- Loop invariant: every recorded subline fits in `maxLen` and the
accumulator tracks the maximum subline length. -/
theorem wrapLoop_inv (maxLen : ℤ) :
    ∀ (fuel : ℕ) (words acc : List (List Char)) (lg : ℕ)
      (sl : List (List Char)) (out : ℕ),
    (∀ s ∈ acc, (s.length : ℤ) ≤ maxLen) → lg = listMax (acc.map List.length) →
    wrapLoop maxLen fuel words acc lg = some (sl, out) →
    (∀ s ∈ sl, (s.length : ℤ) ≤ maxLen) ∧ out = listMax (sl.map List.length) := by
  intro fuel
  induction fuel with
  | zero => intro words acc lg sl out _ _ h; exact absurd h (by simp [wrapLoop])
  | succ n ih =>
    intro words acc lg sl out hacc hlg hsome
    cases words with
    | nil =>
      rw [wrapLoop] at hsome
      obtain ⟨rfl, rfl⟩ := Prod.mk.injEq .. ▸ Option.some.injEq .. ▸ hsome
      exact ⟨hacc, hlg⟩
    | cons w ws =>
      rw [wrapLoop] at hsome
      by_cases hemp : (packLine maxLen [] (w :: ws)).1 = []
      · exfalso
        have hstuck : packLine maxLen [] (w :: ws) = ([], w :: ws) := by
          have h2 := packLine_empty_stuck maxLen (w :: ws) hemp
          exact Prod.ext hemp h2
        rw [hstuck, wrapLoop_stuck maxLen (w :: ws) (by simp) hstuck n _ _] at hsome
        exact Option.noConfusion hsome
      · have hlen : (((packLine maxLen [] (w :: ws)).1.length : ℤ)) ≤ maxLen + 1 := by
          rcases packLine_length maxLen [] (w :: ws) (Or.inl rfl) with h | h
          · exact absurd h hemp
          · exact h
        have hne : 1 ≤ (packLine maxLen [] (w :: ws)).1.length :=
          Nat.one_le_iff_ne_zero.mpr (fun h => hemp (List.length_eq_zero.mp h))
        have hdrop : (((packLine maxLen [] (w :: ws)).1.dropLast.length : ℤ)) ≤ maxLen := by
          rw [List.length_dropLast]
          push_cast
          omega
        refine ih _ _ _ _ _ ?_ ?_ hsome
        · intro s hs
          rcases List.mem_append.mp hs with h | h
          · exact hacc s h
          · rw [List.mem_singleton.mp h]
            exact hdrop
        · rw [List.map_append, List.map_singleton, listMax_append_singleton, hlg]

theorem joinSp_eq_joinSpaces (T : List (List Char)) (hT : T ≠ []) :
    joinSp T = joinSpaces T ++ [' '] := by
  induction T with
  | nil => exact absurd rfl hT
  | cons t ts iht =>
    cases ts with
    | nil => simp [joinSp, joinSpaces]
    | cons t2 ts2 =>
      simp only [joinSp, List.flatMap_cons] at *
      rw [iht (by simp)]
      simp [joinSpaces]

theorem joinSp_dropLast (T : List (List Char)) (hT : T ≠ []) :
    (joinSp T).dropLast = joinSpaces T := by
  rw [joinSp_eq_joinSpaces T hT, List.dropLast_concat]

/-- If every token fits, each loop round consumes a nonempty group of
whole tokens, and the recorded sublines are those groups rejoined with
single spaces. -/
theorem wrapLoop_all_fit (maxLen : ℤ) :
    ∀ (fuel : ℕ) (words acc : List (List Char)) (lg : ℕ),
    (∀ w ∈ words, (w.length : ℤ) ≤ maxLen) → tokensMeasure words < fuel →
    ∃ (groups : List (List (List Char))) (out : ℕ),
      (∀ g ∈ groups, g ≠ []) ∧ groups.flatten = words ∧
      wrapLoop maxLen fuel words acc lg = some (acc ++ groups.map joinSpaces, out) := by
  intro fuel
  induction fuel with
  | zero => intro words acc lg _ h; omega
  | succ n ih =>
    intro words acc lg hfit hfuel
    cases words with
    | nil => exact ⟨[], lg, by simp, by simp, by simp [wrapLoop]⟩
    | cons w ws =>
      obtain ⟨T, rest, heq, hpack, hTne⟩ := packLine_all_fit maxLen [] (w :: ws) hfit
      have hT : T ≠ [] := hTne rfl (by simp)
      have hrest_fit : ∀ x ∈ rest, (x.length : ℤ) ≤ maxLen := by
        intro x hx
        exact hfit x (heq ▸ List.mem_append_right T hx)
      have hmeas : tokensMeasure rest < n := by
        have h1 : tokensMeasure (w :: ws) = tokensMeasure T + tokensMeasure rest := by
          rw [heq, tokensMeasure_append]
        have h2 : 1 ≤ tokensMeasure T := by
          cases T with
          | nil => exact absurd rfl hT
          | cons a as => simp [tokensMeasure]; omega
        omega
      obtain ⟨groups, out, hgne, hflat, hloop⟩ :=
        ih rest (acc ++ [joinSpaces T]) (max lg (joinSpaces T).length) hrest_fit hmeas
      refine ⟨T :: groups, out, ?_, by simp [hflat, heq], ?_⟩
      · intro g hg
        rcases List.mem_cons.mp hg with rfl | hg'
        · exact hT
        · exact hgne g hg'
      · rw [wrapLoop]
        simp only [hpack, List.nil_append, joinSp_dropLast T hT]
        rw [hloop]
        simp

/-! ### Lemmas about space-splitting -/

theorem splitOnSpace_ne_nil (l : List Char) : splitOnSpace l ≠ [] := by
  cases l with
  | nil => simp [splitOnSpace]
  | cons c cs =>
    rw [splitOnSpace]
    split
    · simp
    · cases h : splitOnSpace cs <;> simp

theorem splitOnSpace_no_space (l : List Char) :
    ∀ t ∈ splitOnSpace l, ' ' ∉ t := by
  induction l with
  | nil =>
    intro t ht
    rw [List.mem_singleton.mp ht]
    simp
  | cons c cs ih =>
    intro t ht
    rw [splitOnSpace] at ht
    by_cases hc : c = ' '
    · rw [if_pos hc] at ht
      rcases List.mem_cons.mp ht with rfl | h
      · simp
      · exact ih t h
    · rw [if_neg hc] at ht
      cases h : splitOnSpace cs with
      | nil => exact absurd h (splitOnSpace_ne_nil cs)
      | cons u us =>
        rw [h] at ht
        rcases List.mem_cons.mp ht with rfl | hmem
        · intro hsp
          rcases List.mem_cons.mp hsp with heq | hmem'
          · exact hc heq.symm
          · exact ih u (h ▸ List.mem_cons_self u us) hmem'
        · exact ih t (h ▸ List.mem_cons_of_mem u hmem)

theorem splitOnSpace_append (A B : List Char) :
    splitOnSpace (A ++ ' ' :: B) = splitOnSpace A ++ splitOnSpace B := by
  induction A with
  | nil => simp [splitOnSpace]
  | cons c cs ih =>
    by_cases hc : c = ' '
    · subst hc
      show splitOnSpace (' ' :: (cs ++ ' ' :: B)) = splitOnSpace (' ' :: cs) ++ _
      rw [splitOnSpace, if_pos rfl, ih, splitOnSpace, if_pos rfl, List.cons_append]
    · show splitOnSpace (c :: (cs ++ ' ' :: B)) = splitOnSpace (c :: cs) ++ _
      rw [splitOnSpace, if_neg hc, ih, splitOnSpace, if_neg hc]
      cases h : splitOnSpace cs with
      | nil => exact absurd h (splitOnSpace_ne_nil cs)
      | cons u us => simp

theorem splitOnSpace_of_no_space (t : List Char) (h : ' ' ∉ t) :
    splitOnSpace t = [t] := by
  induction t with
  | nil => rfl
  | cons c cs ih =>
    have hc : c ≠ ' ' := fun hc => h (hc ▸ List.mem_cons_self c cs)
    rw [splitOnSpace, if_neg hc, ih (fun hm => h (List.mem_cons_of_mem c hm))]

theorem splitOnSpace_joinSpaces (sl : List (List Char)) (hne : sl ≠ []) :
    splitOnSpace (joinSpaces sl) = sl.flatMap splitOnSpace := by
  induction sl with
  | nil => exact absurd rfl hne
  | cons s ss ih =>
    cases ss with
    | nil => simp [joinSpaces]
    | cons s2 ss2 =>
      show splitOnSpace (s ++ ' ' :: joinSpaces (s2 :: ss2)) = _
      rw [splitOnSpace_append, ih (by simp)]
      simp

/-! ### Lemmas about the table layout pass -/

/-- Shared invariant of `_word_wrap_to_len`: every returned subline fits
and the returned integer is the maximum subline length. -/
theorem word_wrap_inv (line : List Char) (maxLen : ℤ)
    (sl : List (List Char)) (lg : ℕ)
    (h : word_wrap_to_len line maxLen = some (sl, lg)) :
    (∀ s ∈ sl, (s.length : ℤ) ≤ maxLen) ∧ lg = listMax (sl.map List.length) := by
  rw [word_wrap_to_len] at h
  split at h
  · obtain ⟨rfl, rfl⟩ := Prod.mk.injEq .. ▸ Option.some.injEq .. ▸ h
    constructor
    · intro s hs
      rw [List.mem_singleton.mp hs]
      assumption
    · simp [listMax]
  · exact wrapLoop_inv maxLen _ _ [] 0 sl lg (by simp) (by simp [listMax]) h


theorem get?_lt_length {α : Type} {l : List α} {i : ℕ} {a : α}
    (h : l.get? i = some a) : i < l.length := by
  by_contra hge
  rw [List.get?_eq_none.mpr (Nat.le_of_not_lt hge)] at h
  exact Option.noConfusion h

theorem mem_sortByFst {l : List (ℤ × ℕ)} {p : ℤ × ℕ} : p ∈ sortByFst l ↔ p ∈ l :=
  (List.perm_insertionSort _ _).mem_iff

theorem pyEnum_mem {α : Type} :
    ∀ (l : List α) (k : ℕ) (p : ℕ × α),
    p ∈ pyEnum k l ↔ (k ≤ p.1 ∧ l.get? (p.1 - k) = some p.2) := by
  intro l
  induction l with
  | nil => simp [pyEnum]
  | cons x xs ih =>
    intro k p
    rw [pyEnum, List.mem_cons, ih (k + 1) p]
    constructor
    · rintro (rfl | ⟨hk, hget⟩)
      · exact ⟨Nat.le_refl k, by simp⟩
      · refine ⟨Nat.le_of_succ_le hk, ?_⟩
        have : p.1 - k = (p.1 - (k + 1)) + 1 := by omega
        rw [this, List.get?_cons_succ]
        exact hget
    · rintro ⟨hk, hget⟩
      rcases Nat.eq_or_lt_of_le hk with heq | hlt
      · left
        rw [← heq, Nat.sub_self, List.get?_cons_zero, Option.some.injEq] at hget
        cases p
        simp_all
      · right
        refine ⟨hlt, ?_⟩
        have : p.1 - k = (p.1 - (k + 1)) + 1 := by omega
        rw [this, List.get?_cons_succ] at hget
        exact hget

theorem pyEnum_pairwise {α : Type} :
    ∀ (l : List α) (k : ℕ), List.Pairwise (fun p q => p.1 < q.1) (pyEnum k l) := by
  intro l
  induction l with
  | nil => intro k; simp [pyEnum]
  | cons x xs ih =>
    intro k
    rw [pyEnum]
    refine List.pairwise_cons.mpr ⟨?_, ih (k + 1)⟩
    intro p hp
    have := (pyEnum_mem xs (k + 1) p).mp hp
    omega

/-- A member of the collapsed list really is a slot of the width list with
that value, and it fails the viable-width test. -/
theorem collapsedOf_mem {cw : List ℤ} {i : ℕ} {w : ℤ}
    (h : (i, w) ∈ collapsedOf cw) : cw.get? i = some w ∧ w - 2 < 2 := by
  rw [collapsedOf, List.mem_filter] at h
  obtain ⟨hmem, hlt⟩ := h
  have := (pyEnum_mem cw 0 (i, w)).mp hmem
  simp only [Nat.sub_zero] at this
  exact ⟨this.2, by simpa using hlt⟩

theorem collapsedOf_pairwise (cw : List ℤ) :
    List.Pairwise (fun p q => p.1 ≠ q.1) (collapsedOf cw) := by
  refine List.Pairwise.filter _ ?_
  exact (pyEnum_pairwise cw 0).imp (fun h => Nat.ne_of_lt h)

/-- No donor-pool entry carries the index of a collapsed column. -/
theorem extraOf_disjoint {cw : List ℤ} {i : ℕ} {w : ℤ}
    (h : (i, w) ∈ collapsedOf cw) :
    ∀ p ∈ extraOf cw, p.2 ≠ i := by
  intro p hp hpi
  rw [extraOf] at hp
  have hp' := mem_sortByFst.mp hp
  obtain ⟨q, hq, hqp⟩ := List.mem_map.mp hp'
  rw [List.mem_filter] at hq
  obtain ⟨hqmem, hqfilt⟩ := hq
  have hq1 : q.1 = i := by
    have := congrArg Prod.snd hqp
    simp at this
    omega
  have hqget := (pyEnum_mem cw 0 q).mp hqmem
  simp only [Nat.sub_zero] at hqget
  have hiw := collapsedOf_mem h
  have : q.2 = w := by
    rw [hq1] at hqget
    rw [hqget.2] at hiw
    exact (Option.some.injEq .. ▸ hiw.1).symm ▸ rfl
  have : q = (i, w) := Prod.ext hq1 this
  rw [this] at hqfilt
  simp [h] at hqfilt

theorem collapseLoop_length :
    ∀ (collapsed : List (ℕ × ℤ)) (cw : List ℤ) (extra : List (ℤ × ℕ)) (cw' : List ℤ),
    collapseLoop collapsed cw extra = some cw' → cw'.length = cw.length := by
  intro collapsed
  induction collapsed with
  | nil =>
    intro cw extra cw' h
    rw [collapseLoop, Option.some.injEq] at h
    rw [← h]
  | cons p rest ih =>
    intro cw extra cw' h
    obtain ⟨i, w⟩ := p
    cases extra with
    | nil => rw [collapseLoop] at h; exact Option.noConfusion h
    | cons e es =>
      obtain ⟨ew, ei⟩ := e
      rw [collapseLoop] at h
      by_cases hcond : ew - w > 2
      · rw [if_pos hcond] at h
        have := ih _ _ _ h
        simpa using this
      · rw [if_neg hcond] at h
        exact Option.noConfusion h

/-- The collapse loop does not touch a slot whose index appears neither in
the collapsed list nor in the donor pool. -/
theorem collapseLoop_untouched :
    ∀ (collapsed : List (ℕ × ℤ)) (cw : List ℤ) (extra : List (ℤ × ℕ)) (cw' : List ℤ)
      (i : ℕ),
    (∀ p ∈ collapsed, p.1 ≠ i) → (∀ p ∈ extra, p.2 ≠ i) →
    collapseLoop collapsed cw extra = some cw' → cw'.get? i = cw.get? i := by
  intro collapsed
  induction collapsed with
  | nil =>
    intro cw extra cw' i _ _ h
    rw [collapseLoop, Option.some.injEq] at h
    rw [← h]
  | cons p rest ih =>
    intro cw extra cw' i hc he h
    obtain ⟨j, w⟩ := p
    cases extra with
    | nil => rw [collapseLoop] at h; exact Option.noConfusion h
    | cons e es =>
      obtain ⟨ew, ei⟩ := e
      rw [collapseLoop] at h
      by_cases hcond : ew - w > 2
      · rw [if_pos hcond] at h
        have hrec := ih _ _ _ i (fun q hq => hc q (List.mem_cons_of_mem _ hq))
          (fun q hq => he q (mem_sortByFst.mp hq)) h
        rw [hrec, List.get?_set_ne _ _ (hc (j, w) (List.mem_cons_self _ _)),
          List.get?_set_ne _ _ (he (ew, ei) (List.mem_cons_self _ _))]
      · rw [if_neg hcond] at h
        exact Option.noConfusion h

/-- Every collapsed slot ends the loop at total width exactly 2: the
transferred padding is `2 - w`, so the new value `w + (2 - w)` is 2. -/
theorem collapseLoop_collapsed_two :
    ∀ (collapsed : List (ℕ × ℤ)) (cw : List ℤ) (extra : List (ℤ × ℕ)) (cw' : List ℤ)
      (i : ℕ) (w : ℤ),
    (i, w) ∈ collapsed → List.Pairwise (fun p q => p.1 ≠ q.1) collapsed →
    (∀ p ∈ extra, p.2 ≠ i) → i < cw.length →
    collapseLoop collapsed cw extra = some cw' → cw'.get? i = some 2 := by
  intro collapsed
  induction collapsed with
  | nil =>
    intro cw extra cw' i w hmem
    exact absurd hmem (List.not_mem_nil _)
  | cons p rest ih =>
    intro cw extra cw' i w hmem hpw he hi h
    obtain ⟨j, wj⟩ := p
    cases extra with
    | nil => rw [collapseLoop] at h; exact Option.noConfusion h
    | cons e es =>
      obtain ⟨ew, ei⟩ := e
      rw [collapseLoop] at h
      by_cases hcond : ew - wj > 2
      · rw [if_pos hcond] at h
        rcases List.mem_cons.mp hmem with heq | hmem'
        · obtain ⟨rfl, rfl⟩ := Prod.mk.injEq .. ▸ heq
          have huntouched := collapseLoop_untouched rest _ _ _ i
            (fun q hq => ((List.pairwise_cons.mp hpw).1 q hq).symm)
            (fun q hq => he q (mem_sortByFst.mp hq)) h
          rw [huntouched]
          have hset : (((cw.set ei (ew - (2 - w))).set i (w + (2 - w)))).get? i
              = some (w + (2 - w)) := by
            apply List.get?_set_eq_of_lt
            simpa using hi
          rw [hset]
          norm_num
        · exact ih _ _ _ i w hmem' (List.pairwise_cons.mp hpw).2
            (fun q hq => he q (mem_sortByFst.mp hq))
            (by simpa using hi) h
      · rw [if_neg hcond] at h
        exact Option.noConfusion h

theorem colWidthsInit_length (usable total : ℤ) (ws : List ℤ) (h : ws ≠ []) :
    (colWidthsInit usable total ws).length = ws.length := by
  rw [colWidthsInit]
  have hlen : 1 ≤ ws.length := List.length_pos.mpr h
  rw [List.length_append, List.length_take, List.length_map, List.length_singleton]
  omega

theorem colWidthsInit_sum (usable total : ℤ) (ws : List ℤ) :
    (colWidthsInit usable total ws).sum = usable := by
  rw [colWidthsInit]
  simp only [List.sum_append, List.sum_cons, List.sum_nil]
  ring

/-- A nonempty column can only be wrapped after the viable-width assert. -/
theorem wrapColumn_guard {w : ℤ} {col : List (List Char)}
    {gs : List (List (List Char))}
    (h : wrapColumn w col = some gs) (hne : col ≠ []) : 1 < w - 2 := by
  cases col with
  | nil => exact absurd rfl hne
  | cons e es =>
    rw [wrapColumn] at h
    by_cases hg : w - 2 > 1
    · exact hg
    · rw [if_neg hg] at h
      exact Option.noConfusion h

/-- Every subline stored for a column fits in the column's content
width. -/
theorem wrapColumn_sublines {w : ℤ} :
    ∀ {col : List (List Char)} {gs : List (List (List Char))},
    wrapColumn w col = some gs →
    ∀ g ∈ gs, ∀ s ∈ g, (s.length : ℤ) ≤ w - 2 := by
  intro col
  induction col with
  | nil =>
    intro gs h
    rw [wrapColumn, Option.some.injEq] at h
    rw [← h]
    intro g hg
    exact absurd hg (List.not_mem_nil g)
  | cons e es ih =>
    intro gs h
    rw [wrapColumn] at h
    split at h
    · split at h
      · next sl x rest heq1 heq2 =>
        rw [Option.some.injEq] at h
        intro g hg
        rw [← h] at hg
        rcases List.mem_cons.mp hg with rfl | hg'
        · exact fun s hs => (word_wrap_inv e (w - 2) g x heq1).1 s hs
        · exact ih heq2 g hg'
      · exact Option.noConfusion h
    · exact Option.noConfusion h

theorem wrapColumns_length :
    ∀ {ws : List ℤ} {cols : List (List (List Char))}
      {wr : List (List (List (List Char)))},
    wrapColumns ws cols = some wr → wr.length = cols.length := by
  intro ws cols
  induction cols generalizing ws with
  | nil =>
    intro wr h
    rw [wrapColumns, Option.some.injEq] at h
    rw [← h]
    rfl
  | cons col cols ih =>
    intro wr h
    cases ws with
    | nil => exact Option.noConfusion h
    | cons w ws' =>
      rw [wrapColumns] at h
      split at h
      · next g gs heq1 heq2 =>
        rw [Option.some.injEq] at h
        rw [← h, List.length_cons, ih heq2, List.length_cons]
      · exact Option.noConfusion h

/-- Positionwise content of a successful wrapping pass. -/
theorem wrapColumns_pointwise :
    ∀ {ws : List ℤ} {cols : List (List (List Char))}
      {wr : List (List (List (List Char)))},
    wrapColumns ws cols = some wr →
    ∀ k, k < cols.length →
    ∃ w col g, ws.get? k = some w ∧ cols.get? k = some col ∧ wr.get? k = some g ∧
      wrapColumn w col = some g := by
  intro ws cols
  induction cols generalizing ws with
  | nil =>
    intro wr h k hk
    exact absurd hk (by simp)
  | cons col cols ih =>
    intro wr h k hk
    cases ws with
    | nil => exact Option.noConfusion h
    | cons w ws' =>
      rw [wrapColumns] at h
      split at h
      · next g gs heq1 heq2 =>
        rw [Option.some.injEq] at h
        cases k with
        | zero => exact ⟨w, col, g, rfl, rfl, by rw [← h]; rfl, heq1⟩
        | succ k' =>
          obtain ⟨w', col', g', h1, h2, h3, h4⟩ := ih heq2 k' (by simpa using hk)
          exact ⟨w', col', g', h1, h2, by rw [← h]; simpa using h3, h4⟩
      · exact Option.noConfusion h

/-- The central layout invariant: on any `table` call that passes both the
layout stage and the wrapping stage, no column was collapsed, the final
widths are the proportional distribution, they sum to `table_width - 1`,
and every column has content width at least 2. -/
theorem tableColWidths_spec (term : ℤ) (columns : List (List (List Char)))
    (w? mw? mnw? : Option ℤ) (cw : List ℤ) (wr : List (List (List (List Char))))
    (hcw : tableColWidths term columns w? mw? mnw? = some cw)
    (hwrap : wrapColumns cw columns = some wr) :
    cw.length = columns.length ∧
    cw.sum = tableWidth term columns w? mw? mnw? - 1 ∧
    (∀ x ∈ cw, 1 < x - 2) := by
  rw [tableColWidths] at hcw
  split at hcw
  · exact Option.noConfusion hcw
  · next hguard =>
    push_neg at hguard
    obtain ⟨hcols_ne, hany⟩ := hguard
    have hcols_nonempty : ∀ col ∈ columns, col ≠ [] := by
      intro col hcol hnil
      apply hany
      rw [List.any_eq_true]
      exact ⟨col, hcol, by simp [hnil]⟩
    split at hcw
    · exact Option.noConfusion hcw
    · next htotal =>
      set cw1 := colWidthsPre term columns w? mw? mnw? with hcw1
      have hws_ne : natWidths (tableMaxWidth term mw?) columns ≠ [] := by
        rw [natWidths]
        simpa using hcols_ne
      have hlen1 : cw1.length = columns.length := by
        rw [hcw1, colWidthsPre, colWidthsInit_length _ _ _ hws_ne, natWidths]
        simp
      have hcollapsed : collapsedOf cw1 = [] := by
        cases hc : collapsedOf cw1 with
        | nil => rfl
        | cons p rest =>
          exfalso
          obtain ⟨i0, w0⟩ := p
          have hmem : (i0, w0) ∈ collapsedOf cw1 := by
            rw [hc]
            exact List.mem_cons_self _ _
          have hget := collapsedOf_mem hmem
          have hlt : i0 < cw1.length := get?_lt_length hget.1
          have htwo := collapseLoop_collapsed_two (collapsedOf cw1) cw1 (extraOf cw1)
            cw i0 w0 hmem (collapsedOf_pairwise cw1) (extraOf_disjoint hmem) hlt hcw
          obtain ⟨w', col', g', hw', hcol', hg', hwc'⟩ :=
            wrapColumns_pointwise hwrap i0 (by rw [← hlen1]; exact hlt)
          have hcolne : col' ≠ [] := hcols_nonempty col' (List.get?_mem hcol')
          have hguard := wrapColumn_guard hwc' hcolne
          rw [htwo, Option.some.injEq] at hw'
          omega
      rw [hcollapsed, collapseLoop, Option.some.injEq] at hcw
      subst hcw
      refine ⟨hlen1, ?_, ?_⟩
      · rw [hcw1, colWidthsPre, colWidthsInit_sum]
      · intro x hx
        obtain ⟨k, hk⟩ := List.mem_iff_get?.mp hx
        have hklt : k < columns.length := by
          rw [← hlen1]
          exact get?_lt_length hk
        obtain ⟨w', col', g', hw', hcol', hg', hwc'⟩ :=
          wrapColumns_pointwise hwrap k hklt
        have hcolne : col' ≠ [] := hcols_nonempty col' (List.get?_mem hcol')
        have := wrapColumn_guard hwc' hcolne
        rw [hk, Option.some.injEq] at hw'
        omega

/-! ### Lemmas about the table rendering pass -/

theorem make_hline_length (tw : ℤ) (c e : Char) (h : 2 ≤ tw) :
    ((make_hline tw c e).length : ℤ) = tw := by
  rw [make_hline]
  simp only [List.length_cons, List.length_append, List.length_replicate, List.length_nil]
  omega

theorem sum_ge_four (l : List ℤ) (h4 : ∀ x ∈ l, 1 < x - 2) (hne : l ≠ []) :
    4 ≤ l.sum := by
  cases l with
  | nil => exact absurd rfl hne
  | cons x xs =>
    have hx : 1 < x - 2 := h4 x (List.mem_cons_self x xs)
    have hxs : 0 ≤ xs.sum := List.sum_nonneg (fun z hz => by
      have := h4 z (List.mem_cons_of_mem _ hz)
      omega)
    simp only [List.sum_cons]
    omega

theorem renderRowLine_cons (w : ℤ) (ws : List ℤ) (v : List Char)
    (vs : List (List Char)) :
    renderRowLine (w :: ws) (v :: vs) =
      ('|' :: ' ' :: v ++ List.replicate (w - v.length - 2).toNat ' ') ++
        renderRowLine ws vs := by
  simp [renderRowLine]

/-- A content line's visible length is the sum of the column widths plus
the final border, provided each value fits in its column. -/
theorem renderRowLine_length :
    ∀ {cw : List ℤ} {vals : List (List Char)},
    List.Forall₂ (fun w v => (v.length : ℤ) + 2 ≤ w) cw vals →
    ((renderRowLine cw vals).length : ℤ) = cw.sum + 1 := by
  intro cw vals h
  induction h with
  | nil => simp [renderRowLine]
  | @cons w v ws vs hwv htail ih =>
    rw [renderRowLine_cons, List.length_append]
    push_cast
    rw [ih]
    simp only [List.length_cons, List.length_append, List.length_replicate]
    push_cast
    rw [List.sum_cons]
    omega

/-- Every line produced for one row has the full table width. -/
theorem rowLines_length {cw : List ℤ} {entries : List (List (List Char))}
    (hf : List.Forall₂ (fun w e => ∀ i : ℕ, ((e.getD i []).length : ℤ) + 2 ≤ w)
      cw entries) :
    ∀ l ∈ rowLines cw entries, (l.length : ℤ) = cw.sum + 1 := by
  intro l hl
  rw [rowLines] at hl
  obtain ⟨i, hi, rfl⟩ := List.mem_map.mp hl
  refine renderRowLine_length ?_
  rw [List.forall₂_map_right_iff]
  exact hf.imp (fun w e he => he i)

/-- Every divider is a horizontal line. -/
theorem rowDivider_mem {r n : ℕ} {tw : ℤ} {rd hd : Bool} {l : List Char}
    (h : l ∈ rowDivider r n tw rd hd) : ∃ c e, l = make_hline tw c e := by
  rw [rowDivider] at h
  split at h
  · split at h
    · exact ⟨'=', '|', List.mem_singleton.mp h⟩
    · split at h
      · exact ⟨'-', '|', List.mem_singleton.mp h⟩
      · exact absurd h (List.not_mem_nil l)
  · split at h
    · split at h
      · exact ⟨'-', '|', List.mem_singleton.mp h⟩
      · exact absurd h (List.not_mem_nil l)
    · exact ⟨'-', '+', List.mem_singleton.mp h⟩

/-- The wrapped columns satisfy, columnwise, the width guard and the
subline bound. -/
theorem wrapColumns_forall₂ :
    ∀ {ws : List ℤ} {cols : List (List (List Char))}
      {wr : List (List (List (List Char)))},
    wrapColumns ws cols = some wr → ws.length = cols.length →
    (∀ col ∈ cols, col ≠ []) →
    List.Forall₂ (fun w g => 1 < w - 2 ∧ ∀ gr ∈ g, ∀ s ∈ gr, (s.length : ℤ) ≤ w - 2)
      ws wr := by
  intro ws cols
  induction cols generalizing ws with
  | nil =>
    intro wr h hlen _
    rw [wrapColumns, Option.some.injEq] at h
    rw [← h]
    rw [List.length_eq_zero.mp hlen]
    exact List.Forall₂.nil
  | cons col cols ih =>
    intro wr h hlen hne
    cases ws with
    | nil => exact Option.noConfusion h
    | cons w ws' =>
      rw [wrapColumns] at h
      split at h
      · next g gs heq1 heq2 =>
        rw [Option.some.injEq] at h
        rw [← h]
        refine List.Forall₂.cons ⟨?_, wrapColumn_sublines heq1⟩ ?_
        · exact wrapColumn_guard heq1 (hne col (List.mem_cons_self _ _))
        · exact ih heq2 (by simpa using hlen) (fun c hc => hne c (List.mem_cons_of_mem _ hc))
      · exact Option.noConfusion h

/-- The per-row cell values always fit: a present subline by the wrap
bound, a missing subline or missing row as the empty string. -/
theorem getD_mem_or_eq {α : Type} (l : List α) (i : ℕ) (d : α) :
    l.getD i d ∈ l ∨ l.getD i d = d := by
  by_cases h : i < l.length
  · left
    rw [List.getD_eq_getElem l d h]
    exact List.getElem_mem ..
  · right
    exact List.getD_eq_default l d (by omega)

/-- The per-row cell values always fit: a present subline by the wrap
bound, a missing subline or missing row as the empty string. -/
theorem rowVals_fit {cw : List ℤ} {wrapped : List (List (List (List Char)))}
    (hf : List.Forall₂ (fun w g => 1 < w - 2 ∧ ∀ gr ∈ g, ∀ s ∈ gr, (s.length : ℤ) ≤ w - 2)
      cw wrapped) (r : ℕ) :
    List.Forall₂ (fun w e => ∀ i : ℕ, ((e.getD i []).length : ℤ) + 2 ≤ w)
      cw (rowVals wrapped r) := by
  rw [rowVals, List.forall₂_map_right_iff]
  refine hf.imp ?_
  rintro w g ⟨hguard, hsub⟩ i
  rcases getD_mem_or_eq g r [[]] with hmem | hdef
  · rcases getD_mem_or_eq (g.getD r [[]]) i [] with hsmem | hsdef
    · have := hsub _ hmem _ hsmem
      omega
    · rw [hsdef]
      simp only [List.length_nil]
      omega
  · rw [hdef]
    rcases getD_mem_or_eq ([[]] : List (List Char)) i [] with hsmem | hsdef
    · rw [List.mem_singleton.mp hsmem]
      simp only [List.length_nil]
      omega
    · rw [hsdef]
      simp only [List.length_nil]
      omega

/-- A successful `table` call decomposes into a successful layout pass, a
successful wrapping pass, and the rendered lines. -/
theorem table_eq {term : ℤ} {columns : List (List (List Char))}
    {w? mw? mnw? : Option ℤ} {rd hd : Bool} {lines : List (List Char)}
    (h : table term columns w? mw? mnw? rd hd = some lines) :
    ∃ cw wrapped, tableColWidths term columns w? mw? mnw? = some cw ∧
      wrapColumns cw columns = some wrapped ∧
      lines = make_hline (tableWidth term columns w? mw? mnw?) '-' '+' ::
        (List.range (nRows columns)).flatMap
          (fun r => rowLines cw (rowVals wrapped r) ++
            rowDivider r (nRows columns) (tableWidth term columns w? mw? mnw?) rd hd) := by
  rw [table] at h
  cases hcw : tableColWidths term columns w? mw? mnw? with
  | none => rw [hcw] at h; exact Option.noConfusion h
  | some cw =>
    rw [hcw] at h
    dsimp only at h
    cases hwrap : wrapColumns cw columns with
    | none => rw [hwrap] at h; exact Option.noConfusion h
    | some wrapped =>
      rw [hwrap] at h
      dsimp only at h
      rw [Option.some.injEq] at h
      exact ⟨cw, wrapped, rfl, hwrap, h.symm⟩

/-- The layout guards: a successful layout pass implies a nonempty column
list with no empty column. -/
theorem tableColWidths_guards {term : ℤ} {columns : List (List (List Char))}
    {w? mw? mnw? : Option ℤ} {cw : List ℤ}
    (h : tableColWidths term columns w? mw? mnw? = some cw) :
    columns ≠ [] ∧ ∀ col ∈ columns, col ≠ [] := by
  rw [tableColWidths] at h
  split at h
  · exact Option.noConfusion h
  · next hguard =>
    push_neg at hguard
    obtain ⟨h1, h2⟩ := hguard
    refine ⟨h1, ?_⟩
    intro col hcol hnil
    apply h2
    rw [List.any_eq_true]
    exact ⟨col, hcol, by simp [hnil]⟩

/-! ### Python truncation and repetition lemmas -/

theorem pyInt_eq_floor (q : ℚ) (h : 0 ≤ q) : pyInt q = ⌊q⌋ := by
  rw [pyInt, Rat.floor_def,
    Int.tdiv_eq_ediv (by exact_mod_cast Rat.num_nonneg.mpr h) (by positivity)]

theorem pyRepeat_length (s : List Char) (n : ℤ) :
    (pyRepeat s n).length = n.toNat * s.length := by
  rw [pyRepeat, List.length_flatten, List.map_replicate, List.sum_replicate, smul_eq_mul]

/-! ### The word-wrapper claim theorems -/

/-- C5: whenever `_word_wrap_to_len` returns, every subline's visible
length is at most `max_len`, and the returned integer is the maximum
visible length among the sublines. -/
theorem wrap_sublines_fit (line : List Char) (maxLen : ℤ)
    (sl : List (List Char)) (lg : ℕ)
    (h : word_wrap_to_len line maxLen = some (sl, lg)) :
    (∀ s ∈ sl, (s.length : ℤ) ≤ maxLen) ∧ lg = listMax (sl.map List.length) :=
  word_wrap_inv line maxLen sl lg h

/-- Witness for `wrap_sublines_fit` at the line `"ab cd"` with width 2. -/
theorem wrap_sublines_fit_witness :
    ((['a', 'b'] : List Char).length : ℤ) ≤ 2 ∧
      (2 : ℕ) = listMax (([['a', 'b'], ['c', 'd']] : List (List Char)).map List.length) := by
  have h : word_wrap_to_len "ab cd".toList 2 = some ([['a', 'b'], ['c', 'd']], 2) := by
    simp [word_wrap_to_len, splitOnSpace, tokensMeasure, wrapLoop, packLine]
  exact ⟨(wrap_sublines_fit "ab cd".toList 2 _ _ h).1 ['a', 'b'] (by simp),
    (wrap_sublines_fit "ab cd".toList 2 _ _ h).2⟩

/-- C6: if no token of the line exceeds `max_len`, the wrapper returns and
rejoining its sublines with single spaces reconstructs the original token
sequence of the line. -/
theorem wrap_round_trip (line : List Char) (maxLen : ℤ)
    (hfit : ∀ t ∈ splitOnSpace line, (t.length : ℤ) ≤ maxLen) :
    ∃ sl lg, word_wrap_to_len line maxLen = some (sl, lg) ∧
      splitOnSpace (joinSpaces sl) = splitOnSpace line := by
  rw [word_wrap_to_len]
  split
  · exact ⟨[line], line.length, rfl, by simp [joinSpaces]⟩
  · obtain ⟨groups, out, hgne, hflat, hloop⟩ :=
      wrapLoop_all_fit maxLen (tokensMeasure (splitOnSpace line) + 1)
        (splitOnSpace line) [] 0 hfit (Nat.lt_succ_self _)
    refine ⟨groups.map joinSpaces, out, by simpa using hloop, ?_⟩
    have hgroups_ne : groups ≠ [] := by
      intro hg
      exact splitOnSpace_ne_nil line (by rw [← hflat, hg]; rfl)
    rw [splitOnSpace_joinSpaces _ (by simpa using hgroups_ne)]
    have heach : ∀ g ∈ groups, splitOnSpace (joinSpaces g) = g := by
      intro g hg
      rw [splitOnSpace_joinSpaces g (hgne g hg)]
      have : ∀ t ∈ g, splitOnSpace t = [t] := by
        intro t ht
        refine splitOnSpace_of_no_space t ?_
        refine splitOnSpace_no_space line t ?_
        rw [← hflat]
        exact List.mem_flatten.mpr ⟨g, hg, ht⟩
      clear hgne hg
      induction g with
      | nil => rfl
      | cons t ts ihg =>
        simp only [List.flatMap_cons, this t (List.mem_cons_self t ts),
          ihg (fun x hx => this x (List.mem_cons_of_mem t hx))]
        rfl
    rw [← hflat]
    clear hflat hloop hgroups_ne
    induction groups with
    | nil => rfl
    | cons g gs ihg =>
      simp only [List.map_cons, List.flatMap_cons, List.flatten_cons,
        heach g (List.mem_cons_self g gs),
        ihg (fun x hx => hgne x (List.mem_cons_of_mem g hx))
          (fun x hx => heach x (List.mem_cons_of_mem g hx))]

/-- Witness for `wrap_round_trip` at the line `"ab cd"` with width 2. -/
theorem wrap_round_trip_witness :
    ∃ sl lg, word_wrap_to_len "ab cd".toList 2 = some (sl, lg) ∧
      splitOnSpace (joinSpaces sl) = splitOnSpace "ab cd".toList :=
  wrap_round_trip "ab cd".toList 2 (by decide)

/-- C10: the word-wrap loop terminates for every line when the width is at
least 2; for widths at most 1, on any line longer than the width that
contains a token longer than the width, the loop runs forever (every fuel
value is exhausted), and the wrapper yields no result. -/
theorem wrap_termination :
    (∀ maxLen : ℤ, 2 ≤ maxLen → ∀ line : List Char,
      (word_wrap_to_len line maxLen).isSome) ∧
    (∀ maxLen : ℤ, maxLen ≤ 1 → ∀ line : List Char,
      maxLen < (line.length : ℤ) →
      (∃ t ∈ splitOnSpace line, maxLen < (t.length : ℤ)) →
      word_wrap_to_len line maxLen = none ∧
        ∀ (fuel : ℕ) (acc : List (List Char)) (lg : ℕ),
          wrapLoop maxLen fuel (splitOnSpace line) acc lg = none) := by
  constructor
  · intro maxLen hml line
    rw [word_wrap_to_len]
    split
    · rfl
    · exact wrapLoop_isSome maxLen hml _ _ [] 0 (Nat.lt_succ_self _)
  · intro maxLen hml line hlong hex
    have hdiv : ∀ (fuel : ℕ) (acc : List (List Char)) (lg : ℕ),
        wrapLoop maxLen fuel (splitOnSpace line) acc lg = none :=
      fun fuel acc lg => wrapLoop_diverges maxLen hml fuel _ acc lg hex
    refine ⟨?_, hdiv⟩
    rw [word_wrap_to_len, if_neg (by omega)]
    exact hdiv _ [] 0

/-- Witness for `wrap_termination`: width 2 terminates on `"ab c"`; width
1 runs forever on `"ab"`. -/
theorem wrap_termination_witness :
    (word_wrap_to_len "ab c".toList 2).isSome ∧
      word_wrap_to_len "ab".toList 1 = none := by
  constructor
  · exact wrap_termination.1 2 (by norm_num) "ab c".toList
  · exact (wrap_termination.2 1 (by norm_num) "ab".toList (by simp)
      (by simp [splitOnSpace])).1

/-! ### The progress-bar claim theorems -/

/-- C7: for a completion fraction in `[0,1]`, width at least 3 and
single-character glyphs, `progress_bar` returns a string of exactly
`width` characters shaped `[done*, head, undone*]` with
`n_done = floor((width-3)*pct)` and `n_undone = width-3-n_done`; fraction
0 gives zero done characters and fraction 1 gives zero undone
characters. -/
theorem progress_bar_spec (term : ℤ) (p : ℚ) (w : ℤ) (d u c : List Char)
    (hp0 : 0 ≤ p) (hp1 : p ≤ 1) (hw : 3 ≤ w)
    (hdl : d.length = 1) (hul : u.length = 1) (hcl : c.length = 1) :
    ∃ bar, progress_bar term p (some w) d u c = some bar ∧
      (bar.length : ℤ) = w ∧
      bar = '[' :: (pyRepeat d ⌊((w : ℚ) - 3) * p⌋ ++ c ++
        pyRepeat u (w - 3 - ⌊((w : ℚ) - 3) * p⌋) ++ [']']) ∧
      (p = 0 → ⌊((w : ℚ) - 3) * p⌋ = 0) ∧
      (p = 1 → w - 3 - ⌊((w : ℚ) - 3) * p⌋ = 0) := by
  have harg : (0 : ℚ) ≤ ((w : ℚ) - 3) * p := by
    apply mul_nonneg _ hp0
    have : (3 : ℚ) ≤ (w : ℚ) := by exact_mod_cast hw
    linarith
  have hnd : pyInt (((w : ℚ) - 3) * p) = ⌊((w : ℚ) - 3) * p⌋ := pyInt_eq_floor _ harg
  have hnd0 : 0 ≤ ⌊((w : ℚ) - 3) * p⌋ := Int.floor_nonneg.mpr harg
  have hndw : ⌊((w : ℚ) - 3) * p⌋ ≤ w - 3 := by
    have h1 : ((w : ℚ) - 3) * p ≤ (w : ℚ) - 3 := by
      have : (3 : ℚ) ≤ (w : ℚ) := by exact_mod_cast hw
      nlinarith
    calc ⌊((w : ℚ) - 3) * p⌋ ≤ ⌊(w : ℚ) - 3⌋ := Int.floor_le_floor h1
    _ = w - 3 := by
        rw [show ((w : ℚ) - 3) = (((w - 3 : ℤ)) : ℚ) by push_cast; ring, Int.floor_intCast]
  refine ⟨'[' :: (pyRepeat d ⌊((w : ℚ) - 3) * p⌋ ++ c ++
    pyRepeat u (w - 3 - ⌊((w : ℚ) - 3) * p⌋) ++ [']']), ?_, ?_, rfl, ?_, ?_⟩
  · rw [progress_bar, if_pos ⟨hdl, hul, hcl⟩]
    simp only [Option.getD_some, hnd, List.cons_append, List.append_assoc]
  · rw [List.length_cons, List.length_append, List.length_append, List.length_append,
      pyRepeat_length, pyRepeat_length, hdl, hul, hcl]
    have h1 : ((⌊((w : ℚ) - 3) * p⌋).toNat : ℤ) = ⌊((w : ℚ) - 3) * p⌋ :=
      Int.toNat_of_nonneg hnd0
    have h2 : ((w - 3 - ⌊((w : ℚ) - 3) * p⌋).toNat : ℤ) = w - 3 - ⌊((w : ℚ) - 3) * p⌋ :=
      Int.toNat_of_nonneg (by omega)
    push_cast [h1, h2, List.length_singleton]
    omega
  · intro hp
    subst hp
    simp
  · intro hp
    subst hp
    rw [mul_one, show ((w : ℚ) - 3) = (((w - 3 : ℤ)) : ℚ) by push_cast; ring,
      Int.floor_intCast]
    omega

/-- Witness for `progress_bar_spec` at `p = 1/2`, `w = 10`. -/
theorem progress_bar_spec_witness :
    ∃ bar, progress_bar 80 (1/2) (some 10) ['='] ['-'] ['>'] = some bar ∧
      (bar.length : ℤ) = 10 ∧
      bar = '[' :: (pyRepeat ['='] ⌊((10 : ℚ) - 3) * (1/2)⌋ ++ ['>'] ++
        pyRepeat ['-'] (10 - 3 - ⌊((10 : ℚ) - 3) * (1/2)⌋) ++ [']']) ∧
      ((1/2 : ℚ) = 0 → ⌊((10 : ℚ) - 3) * (1/2)⌋ = 0) ∧
      ((1/2 : ℚ) = 1 → (10 : ℤ) - 3 - ⌊((10 : ℚ) - 3) * (1/2)⌋ = 0) :=
  progress_bar_spec 80 (1/2) 10 ['='] ['-'] ['>'] (by norm_num) (by norm_num)
    (by norm_num) rfl rfl rfl

/-- C1: evaluation of the collapse/redistribute pass at
`table([["aaaaaaaaaa"], ["b"]], max_width=12)` (terminal width 80).  The
proportional pass allocates `[8, 3]`, so column 1 is collapsed (3 - 2 < 2)
and column 0 is an eligible donor (8 - 3 > 2).  The transfer sets the
collapsed column to total width 2 — not the minimum viable 4 — so the
subsequent per-column assertion `col_widths[i] - 2 > 1` fails and the whole
call errors out instead of rendering. -/
theorem collapse_sets_width_two :
    tableColWidths 80 [["aaaaaaaaaa".toList], ["b".toList]] none (some 12) none
      = some [9, 2] ∧
    table 80 [["aaaaaaaaaa".toList], ["b".toList]] none (some 12) none true true
      = none := by
  have h5 : pyInt ((7 : ℚ) / 15 * 11) = 5 := by
    norm_num [pyInt]
    decide
  have hcw : tableColWidths 80 [["aaaaaaaaaa".toList], ["b".toList]] none (some 12) none
      = some [9, 2] := by
    simp [tableColWidths, colWidthsPre, tableMaxWidth, tableWidth, tableMinWidth, natWidths,
      totalWidth, colWidthsInit, collapsedOf, extraOf, collapseLoop, pyEnum, sortByFst,
      List.insertionSort, List.orderedInsert, h5]
  refine ⟨hcw, ?_⟩
  rw [table, hcw]
  simp [wrapColumns, wrapColumn, word_wrap_to_len, splitOnSpace, tokensMeasure,
    wrapLoop, packLine]

/-- C4: evaluation of `table([["aaaaaaaaaaaaaaaaaaaa"]], width=10)` with
terminal width 80.  The explicit `width` argument only sets `min_width`;
`max_width` stays at the terminal width, so the content-derived total width
24 wins and the rendered table is 24 columns wide, not the requested 10. -/
theorem explicit_width_not_honored :
    tableWidth 80 [["aaaaaaaaaaaaaaaaaaaa".toList]] (some 10) none none = 24 ∧
    table 80 [["aaaaaaaaaaaaaaaaaaaa".toList]] (some 10) none none true true
      = some ["+----------------------+".toList,
              "| aaaaaaaaaaaaaaaaaaaa |".toList,
              "|======================|".toList] := by
  constructor
  · simp [tableWidth, tableMaxWidth, tableMinWidth, natWidths, totalWidth]
  · rw [table]
    have hcw : tableColWidths 80 [["aaaaaaaaaaaaaaaaaaaa".toList]] (some 10) none none
        = some [23] := by
      simp [tableColWidths, colWidthsPre, tableMaxWidth, tableWidth, tableMinWidth, natWidths,
        totalWidth, colWidthsInit, collapsedOf, extraOf, collapseLoop, pyEnum, sortByFst,
        List.insertionSort, List.orderedInsert]
    rw [hcw]
    simp [wrapColumns, wrapColumn, word_wrap_to_len, splitOnSpace, tokensMeasure,
      wrapLoop, packLine, tableWidth, tableMaxWidth, tableMinWidth, natWidths, totalWidth,
      nRows, rowVals, rowLines, renderRowLine, rowDivider, make_hline, listMax,
      List.range_succ]

/-- C8: with an explicit width, `progress_bar` fails if and only if one of
the three glyph arguments is not exactly one character; with three
single-character glyphs it returns normally. -/
theorem progress_bar_glyph_check (term : ℤ) (p : ℚ) (w : ℤ) (d u c : List Char) :
    progress_bar term p (some w) d u c = none ↔
      ¬(d.length = 1 ∧ u.length = 1 ∧ c.length = 1) := by
  rw [progress_bar]
  split
  · simp only [reduceCtorEq, false_iff, not_not]
    assumption
  · simp only [true_iff]
    assumption

/-! ### The table claim theorems -/

/-- C9: a `table` call that returns output has passed the per-column
assertion for every column: each allocated width exceeds 3, so content
widths are at least 2 — no column is ever silently truncated to zero or
negative content width.  Calls that cannot reach this (no donor, or a
collapsed column) return an error instead. -/
theorem table_no_silent_collapse (term : ℤ) (columns : List (List (List Char)))
    (w? mw? mnw? : Option ℤ) (rd hd : Bool) (lines : List (List Char)) (cw : List ℤ)
    (h : table term columns w? mw? mnw? rd hd = some lines)
    (hcw : tableColWidths term columns w? mw? mnw? = some cw) :
    cw.length = columns.length ∧ ∀ x ∈ cw, 1 < x - 2 := by
  obtain ⟨cw', wrapped', hcw', hwrap', -⟩ := table_eq h
  rw [hcw'] at hcw
  rw [Option.some.injEq] at hcw
  subst hcw
  obtain ⟨hlen, -, h4⟩ := tableColWidths_spec _ _ _ _ _ _ _ hcw' hwrap'
  exact ⟨hlen, h4⟩

/-- Witness for `table_no_silent_collapse` at
`table([["ab"], ["c"]])` with terminal width 20. -/
theorem table_no_silent_collapse_witness :
    ([4, 5] : List ℤ).length = [["ab".toList], ["c".toList]].length ∧
      (1 : ℤ) < 4 - 2 := by
  have h1 : pyInt ((2 : ℚ) / 10 * 9) = 1 := by
    norm_num [pyInt]
    decide
  have hcw : tableColWidths 20 [["ab".toList], ["c".toList]] none none none
      = some [4, 5] := by
    simp [tableColWidths, colWidthsPre, tableMaxWidth, tableWidth, tableMinWidth, natWidths,
      totalWidth, colWidthsInit, collapsedOf, extraOf, collapseLoop, pyEnum, sortByFst,
      List.insertionSort, List.orderedInsert, h1]
  have h : table 20 [["ab".toList], ["c".toList]] none none none true true
      = some ["+--------+".toList, "| ab| c  |".toList, "|========|".toList] := by
    rw [table, hcw]
    simp [wrapColumns, wrapColumn, word_wrap_to_len, splitOnSpace, tokensMeasure,
      wrapLoop, packLine, tableWidth, tableMaxWidth, tableMinWidth, natWidths, totalWidth,
      nRows, rowVals, rowLines, renderRowLine, rowDivider, make_hline, listMax,
      List.range_succ]
  exact ⟨(table_no_silent_collapse 20 _ none none none true true _ _ h hcw).1,
    (table_no_silent_collapse 20 _ none none none true true _ _ h hcw).2 4 (by simp)⟩

/-- C2: on every `table` call that returns, the allocated widths sum to
the table width minus the single closing border character, and every
emitted physical line has visible length exactly the table width. -/
theorem table_rectangular (term : ℤ) (columns : List (List (List Char)))
    (w? mw? mnw? : Option ℤ) (rd hd : Bool) (lines : List (List Char)) (cw : List ℤ)
    (h : table term columns w? mw? mnw? rd hd = some lines)
    (hcw : tableColWidths term columns w? mw? mnw? = some cw) :
    cw.sum + 1 = tableWidth term columns w? mw? mnw? ∧
      ∀ l ∈ lines, (l.length : ℤ) = tableWidth term columns w? mw? mnw? := by
  obtain ⟨cw', wrapped, hcw', hwrap, hlines⟩ := table_eq h
  rw [hcw'] at hcw
  rw [Option.some.injEq] at hcw
  subst hcw
  obtain ⟨hlen, hsum, h4⟩ := tableColWidths_spec _ _ _ _ _ _ _ hcw' hwrap
  obtain ⟨hne, hcolsne⟩ := tableColWidths_guards hcw'
  have hcwne : cw' ≠ [] := by
    intro hnil
    rw [hnil] at hlen
    exact hne (List.length_eq_zero.mp hlen.symm)
  have hs4 : 4 ≤ cw'.sum := sum_ge_four cw' h4 hcwne
  have htw2 : 2 ≤ tableWidth term columns w? mw? mnw? := by omega
  refine ⟨by omega, ?_⟩
  intro l hl
  rw [hlines] at hl
  rcases List.mem_cons.mp hl with rfl | hl'
  · rw [make_hline_length _ _ _ htw2]
  · obtain ⟨r, hr, hlmem⟩ := List.mem_flatMap.mp hl'
    rcases List.mem_append.mp hlmem with hrow | hdiv
    · have := rowLines_length
        (rowVals_fit (wrapColumns_forall₂ hwrap hlen hcolsne) r) l hrow
      omega
    · obtain ⟨c, e, rfl⟩ := rowDivider_mem hdiv
      rw [make_hline_length _ _ _ htw2]

/-- Witness for `table_rectangular` at `table([["ab"], ["c"]])` with
terminal width 20. -/
theorem table_rectangular_witness :
    ([4, 5] : List ℤ).sum + 1 = tableWidth 20 [["ab".toList], ["c".toList]] none none none ∧
      (("+--------+".toList).length : ℤ)
        = tableWidth 20 [["ab".toList], ["c".toList]] none none none := by
  have h1 : pyInt ((2 : ℚ) / 10 * 9) = 1 := by
    norm_num [pyInt]
    decide
  have hcw : tableColWidths 20 [["ab".toList], ["c".toList]] none none none
      = some [4, 5] := by
    simp [tableColWidths, colWidthsPre, tableMaxWidth, tableWidth, tableMinWidth, natWidths,
      totalWidth, colWidthsInit, collapsedOf, extraOf, collapseLoop, pyEnum, sortByFst,
      List.insertionSort, List.orderedInsert, h1]
  have h : table 20 [["ab".toList], ["c".toList]] none none none true true
      = some ["+--------+".toList, "| ab| c  |".toList, "|========|".toList] := by
    rw [table, hcw]
    simp [wrapColumns, wrapColumn, word_wrap_to_len, splitOnSpace, tokensMeasure,
      wrapLoop, packLine, tableWidth, tableMaxWidth, tableMinWidth, natWidths, totalWidth,
      nRows, rowVals, rowLines, renderRowLine, rowDivider, make_hline, listMax,
      List.range_succ]
  exact ⟨(table_rectangular 20 _ none none none true true _ _ h hcw).1,
    (table_rectangular 20 _ none none none true true _ _ h hcw).2 _ (by simp)⟩

theorem rowDivider_zero_one (tw : ℤ) (rd hd : Bool) :
    rowDivider 0 1 tw rd hd =
      (if hd = true then [make_hline tw '=' '|']
       else if rd = true then [make_hline tw '-' '|']
       else []) := by
  rw [rowDivider]
  simp

/-- The closing-style border (edge `+`) is never a content line: content
lines start with `|`. -/
theorem hline_not_mem_rowLines {tw : ℤ} {cw : List ℤ}
    {entries : List (List (List Char))} (hcw : cw ≠ []) (hent : entries ≠ []) :
    make_hline tw '-' '+' ∉ rowLines cw entries := by
  intro hmem
  rw [rowLines] at hmem
  obtain ⟨i, -, heq⟩ := List.mem_map.mp hmem
  cases cw with
  | nil => exact hcw rfl
  | cons w ws =>
    cases entries with
    | nil => exact hent rfl
    | cons e es =>
      rw [List.map_cons, renderRowLine_cons] at heq
      simp only [make_hline, List.cons_append] at heq
      exact absurd (List.cons.injEq .. ▸ heq).1 (by decide)

/-- The closing-style border (edge `+`) is never the header/row divider
(edge `|`). -/
theorem hline_not_mem_divider {tw : ℤ} {rd hd : Bool} :
    make_hline tw '-' '+' ∉
      (if hd = true then [make_hline tw '=' '|']
       else if rd = true then [make_hline tw '-' '|']
       else []) := by
  split
  · intro hmem
    have heq := List.mem_singleton.mp hmem
    simp only [make_hline] at heq
    exact absurd (List.cons.injEq .. ▸ heq).1 (by decide)
  · split
    · intro hmem
      have heq := List.mem_singleton.mp hmem
      simp only [make_hline] at heq
      exact absurd (List.cons.injEq .. ▸ heq).1 (by decide)
    · exact List.not_mem_nil _

/-- C3: a single-row table runs only the `r == 0` branch of the divider
logic: the emitted lines are the top border, the row's content lines, and
one header (or row) divider; the closing bottom border of the final-row
branch is not emitted after the row. -/
theorem table_single_row_border (term : ℤ) (columns : List (List (List Char)))
    (w? mw? mnw? : Option ℤ) (rd hd : Bool) (lines : List (List Char))
    (cw : List ℤ) (wrapped : List (List (List (List Char))))
    (h : table term columns w? mw? mnw? rd hd = some lines)
    (hcw : tableColWidths term columns w? mw? mnw? = some cw)
    (hwrap : wrapColumns cw columns = some wrapped)
    (hrows : nRows columns = 1) :
    lines = make_hline (tableWidth term columns w? mw? mnw?) '-' '+' ::
        (rowLines cw (rowVals wrapped 0) ++
          (if hd = true then [make_hline (tableWidth term columns w? mw? mnw?) '=' '|']
           else if rd = true then [make_hline (tableWidth term columns w? mw? mnw?) '-' '|']
           else [])) ∧
      make_hline (tableWidth term columns w? mw? mnw?) '-' '+' ∉
        rowLines cw (rowVals wrapped 0) ∧
      make_hline (tableWidth term columns w? mw? mnw?) '-' '+' ∉
        (if hd = true then [make_hline (tableWidth term columns w? mw? mnw?) '=' '|']
         else if rd = true then [make_hline (tableWidth term columns w? mw? mnw?) '-' '|']
         else []) := by
  obtain ⟨cw', wrapped', hcw', hwrap', hlines⟩ := table_eq h
  rw [hcw'] at hcw
  rw [Option.some.injEq] at hcw
  subst hcw
  rw [hwrap'] at hwrap
  rw [Option.some.injEq] at hwrap
  subst hwrap
  obtain ⟨hne, hcolsne⟩ := tableColWidths_guards hcw'
  obtain ⟨hlen, -, -⟩ := tableColWidths_spec _ _ _ _ _ _ _ hcw' hwrap'
  have hcwne : cw' ≠ [] := by
    intro hnil
    rw [hnil] at hlen
    exact hne (List.length_eq_zero.mp hlen.symm)
  have hentne : rowVals wrapped' 0 ≠ [] := by
    rw [rowVals]
    intro hnil
    have := congrArg List.length hnil
    rw [List.length_map, wrapColumns_length hwrap'] at this
    exact hne (List.length_eq_zero.mp this)
  refine ⟨?_, hline_not_mem_rowLines hcwne hentne, hline_not_mem_divider⟩
  have hr1 : List.range 1 = [0] := rfl
  rw [hlines, hrows, hr1, List.flatMap_cons, List.flatMap_nil,
    List.append_nil, rowDivider_zero_one]

/-- Witness for `table_single_row_border` at `table([["ab"], ["c"]])`
with terminal width 20 (one row, header dividers on). -/
theorem table_single_row_border_witness :
    ["+--------+".toList, "| ab| c  |".toList, "|========|".toList] =
        make_hline (tableWidth 20 [["ab".toList], ["c".toList]] none none none) '-' '+' ::
          (rowLines [4, 5] (rowVals [[["ab".toList]], [["c".toList]]] 0) ++
            (if true = true
             then [make_hline (tableWidth 20 [["ab".toList], ["c".toList]] none none none) '=' '|']
             else if true = true
             then [make_hline (tableWidth 20 [["ab".toList], ["c".toList]] none none none) '-' '|']
             else [])) ∧
      make_hline (tableWidth 20 [["ab".toList], ["c".toList]] none none none) '-' '+' ∉
        rowLines [4, 5] (rowVals [[["ab".toList]], [["c".toList]]] 0) ∧
      make_hline (tableWidth 20 [["ab".toList], ["c".toList]] none none none) '-' '+' ∉
        (if true = true
         then [make_hline (tableWidth 20 [["ab".toList], ["c".toList]] none none none) '=' '|']
         else if true = true
         then [make_hline (tableWidth 20 [["ab".toList], ["c".toList]] none none none) '-' '|']
         else []) := by
  have h1 : pyInt ((2 : ℚ) / 10 * 9) = 1 := by
    norm_num [pyInt]
    decide
  have hcw : tableColWidths 20 [["ab".toList], ["c".toList]] none none none
      = some [4, 5] := by
    simp [tableColWidths, colWidthsPre, tableMaxWidth, tableWidth, tableMinWidth, natWidths,
      totalWidth, colWidthsInit, collapsedOf, extraOf, collapseLoop, pyEnum, sortByFst,
      List.insertionSort, List.orderedInsert, h1]
  have hwrap : wrapColumns [4, 5] [["ab".toList], ["c".toList]]
      = some [[["ab".toList]], [["c".toList]]] := by
    simp [wrapColumns, wrapColumn, word_wrap_to_len, splitOnSpace, tokensMeasure,
      wrapLoop, packLine]
  have h : table 20 [["ab".toList], ["c".toList]] none none none true true
      = some ["+--------+".toList, "| ab| c  |".toList, "|========|".toList] := by
    rw [table, hcw]
    dsimp only
    rw [hwrap]
    simp [tableWidth, tableMaxWidth, tableMinWidth, natWidths, totalWidth,
      nRows, rowVals, rowLines, renderRowLine, rowDivider, make_hline, listMax,
      List.range_succ]
  exact table_single_row_border 20 _ none none none true true _ _ _ h hcw hwrap (by decide)
